import Mathlib

/-!
Verification development for the skill system repository: a shallow
embedding of `src/core/__init__.py` (SkillRegistry, SkillMetadata,
discover_and_load), `src/core/state.py` (SkillStateFIFO), `src/config.py`
(SkillSystemConfig), `src/middleware.py` (SkillMiddleware),
`src/AgentSkill.py` (the combined visibility filter) and
`src/skills/skill_calculator.py` (the calculator tool), together with
theorems settling the specification claims about them.

Python dictionaries are modelled as association lists that preserve
insertion order: assigning to an existing key overwrites its value in
place, assigning to a fresh key appends at the end.  Python strings are
Lean `String`s; Python `str.replace` and the substring test `in` are
re-implemented below on character lists.
-/

namespace SkillSys

/-- A LangChain `BaseTool` handle as the registry sees it: the code only
reads its `name` and `description` attributes (via `getattr` with a
default, so either may be absent).  `payload` distinguishes distinct tool
objects. -/
structure Tool where
  name : Option String
  description : Option String
  payload : Nat := 0
deriving DecidableEq, Repr

/-- `SkillMetadata` from `src/core/__init__.py` (dataclass with defaults). -/
structure SkillMetadata where
  name : String
  description : String := ""
  tags : List String := []
  visibility : String := "public"
  version : String := "1.0.0"
  author : String := ""
  dependencies : List String := []
deriving DecidableEq, Repr

/-- Python `dict` lookup `d.get(k)`. -/
def dictLookup (k : String) : List (String × α) → Option α
  | [] => none
  | (k₁, v) :: rest => if k₁ = k then some v else dictLookup k rest

/-- Python `dict` assignment `d[k] = v`: overwrite in place if the key is
present, else append (insertion order preserved). -/
def dictInsert (k : String) (v : α) : List (String × α) → List (String × α)
  | [] => [(k, v)]
  | (k₁, v₁) :: rest =>
      if k₁ = k then (k, v) :: rest else (k₁, v₁) :: dictInsert k v rest

theorem dictLookup_insert_self (k : String) (v : α) :
    ∀ l : List (String × α), dictLookup k (dictInsert k v l) = some v := by
  intro l
  induction l with
  | nil => simp [dictInsert, dictLookup]
  | cons p rest ih =>
      by_cases h : p.1 = k
      · simp [dictInsert, dictLookup, h]
      · simp [dictInsert, dictLookup, h, ih]

theorem dictLookup_insert_ne (k k₂ : String) (v : α) (hne : k₂ ≠ k) :
    ∀ l : List (String × α), dictLookup k₂ (dictInsert k v l) = dictLookup k₂ l := by
  intro l
  induction l with
  | nil => simp [dictInsert, dictLookup, hne.symm]
  | cons p rest ih =>
      obtain ⟨k₁, v₁⟩ := p
      by_cases h : k₁ = k
      · subst h
        simp [dictInsert, dictLookup, hne.symm]
      · by_cases h₂ : k₁ = k₂
        · subst h₂
          simp [dictInsert, dictLookup, h]
        · simp [dictInsert, dictLookup, h, h₂, ih]

/-- Keys of `dictInsert`: unchanged when the key was present, appended
otherwise. -/
theorem keys_dictInsert (k : String) (v : α) :
    ∀ l : List (String × α),
      (dictInsert k v l).map Prod.fst =
        (if k ∈ l.map Prod.fst then l.map Prod.fst else l.map Prod.fst ++ [k]) := by
  intro l
  induction l with
  | nil => simp [dictInsert]
  | cons p rest ih =>
      by_cases h : p.1 = k
      · simp [dictInsert, h]
      · have hk : ¬ k = p.1 := fun hk => h hk.symm
        by_cases hmem : k ∈ rest.map Prod.fst
        · simp [dictInsert, h, ih, hmem, hk]
        · simp [dictInsert, h, ih, hmem, hk]

theorem length_dictInsert_mem (k : String) (v : α) (l : List (String × α))
    (h : k ∈ l.map Prod.fst) :
    (dictInsert k v l).length = l.length := by
  have := keys_dictInsert k v l
  rw [if_pos h] at this
  have h₁ : ((dictInsert k v l).map Prod.fst).length = (l.map Prod.fst).length := by
    rw [this]
  simpa using h₁

theorem nodup_keys_dictInsert (k : String) (v : α) (l : List (String × α))
    (h : (l.map Prod.fst).Nodup) :
    ((dictInsert k v l).map Prod.fst).Nodup := by
  rw [keys_dictInsert]
  by_cases hmem : k ∈ l.map Prod.fst
  · simpa [hmem] using h
  · simp only [hmem, if_false]
    refine List.Nodup.append h (List.nodup_singleton k) ?_
    intro a ha hak
    rw [List.mem_singleton] at hak
    subst hak
    exact hmem ha

/-- `pat` is a prefix of `s` (Boolean, on character lists). -/
def isPrefixList (pat s : List Char) : Bool :=
  match pat, s with
  | [], _ => true
  | _ :: _, [] => false
  | a :: as, b :: bs => a == b && isPrefixList as bs

/-- Python substring test `pat in s`, on character lists (the empty
pattern is a substring of everything). -/
def containsSub (pat : List Char) : List Char → Bool
  | [] => isPrefixList pat []
  | c :: rest => isPrefixList pat (c :: rest) || containsSub pat rest

/-- Python `pat in s` on strings. -/
def strHasSub (s pat : String) : Bool := containsSub pat.data s.data

/-- Python `s.lower()` (characterwise, which matches Python on the ASCII
data this code handles). -/
def strToLower (s : String) : String := ⟨s.data.map Char.toLower⟩

/-- Worker for Python `s.replace`: while `skip > 0` the character belongs
to an occurrence already replaced and is dropped; at `skip = 0`, a match
of `pat` emits `repl` and schedules the remaining `pat.length - 1`
matched characters to be skipped, so occurrences never overlap and the
replacement text is not re-scanned. -/
def replCharsAux (pat repl : List Char) : Nat → List Char → List Char
  | _, [] => []
  | 0, c :: rest =>
      if (!pat.isEmpty) && isPrefixList pat (c :: rest) then
        repl ++ replCharsAux pat repl (pat.length - 1) rest
      else
        c :: replCharsAux pat repl 0 rest
  | Nat.succ k, _ :: rest => replCharsAux pat repl k rest

/-- Python `s.replace(pat, repl)` on character lists: every
non-overlapping occurrence is replaced, scanning left to right.  (The
code only uses a non-empty `pat`, namely `f"{module_name}_"`.) -/
def replChars (pat repl s : List Char) : List Char :=
  replCharsAux pat repl 0 s

/-- Python `s.replace(pat, repl)` on strings. -/
def strReplace (s pat repl : String) : String := ⟨replChars pat.data repl.data s.data⟩

/-- The attributes of a loaded skill module that `discover_and_load`
probes with `hasattr`/`getattr`: a `tools` list (only honoured when it
really is a list, which `none` also models), a `tool` or `skill` tool,
the results of the `get_tool()` / `create_tool()` factories, and a
module-level `metadata` (or `METADATA`) export. -/
structure SkillModule where
  toolsExport : Option (List Tool) := none
  toolExport : Option Tool := none
  skillExport : Option Tool := none
  getToolExport : Option Tool := none
  createToolExport : Option Tool := none
  metadataExport : Option SkillMetadata := none
deriving Repr

/-- The `tools_to_register` selection chain of `discover_and_load`:
`tools` list first, then `tool`, `skill`, `get_tool()`, `create_tool()`. -/
def SkillModule.toolsToRegister (m : SkillModule) : List Tool :=
  match m.toolsExport with
  | some ts => ts
  | none =>
    match m.toolExport with
    | some t => [t]
    | none =>
      match m.skillExport with
      | some t => [t]
      | none =>
        match m.getToolExport with
        | some t => [t]
        | none =>
          match m.createToolExport with
          | some t => [t]
          | none => []

/-- What loading one discovered file does: raise an exception (caught by
the per-file `try`), yield a `None` import spec/loader (`continue`), or
produce a module. -/
inductive LoadOutcome where
  | failure
  | specNone
  | ok (m : SkillModule)
deriving Repr

/-- One file matched by the `f"{module_name}_*.py"` glob: its stem and
what loading it does. -/
structure SkillFile where
  stem : String
  outcome : LoadOutcome
deriving Repr

/-- `SkillRegistry.__init__`: the three insertion-ordered dicts. -/
structure SkillRegistry where
  skills : List (String × SkillMetadata) := []
  tools : List (String × Tool) := []
  modules : List (String × SkillModule) := []

def SkillRegistry.empty : SkillRegistry := {}

/-- `SkillRegistry.register`: synthesize metadata from the tool when none
is given (`tool.description or ""`), then assign into both dicts. -/
def SkillRegistry.register (r : SkillRegistry) (name : String) (tool : Tool)
    (metadata : Option SkillMetadata) : SkillRegistry :=
  let md : SkillMetadata :=
    match metadata with
    | none => { name := name, description := tool.description.getD "" }
    | some m => m
  { r with skills := dictInsert name md r.skills, tools := dictInsert name tool r.tools }

/-- The skill name `discover_and_load` uses for the tool at index `idx`
of a file yielding `total` tools, with `base` the stem after
`.replace(f"{module_name}_", "")`: the base name alone for a single
tool, else `f"{base}_{getattr(tool, 'name', f'tool_{idx}')}"`. -/
def skillNameFor (base : String) (total idx : Nat) (t : Tool) : String :=
  if total = 1 then base
  else base ++ "_" ++ (match t.name with | some n => n | none => "tool_" ++ toString idx)

/-- The per-tool metadata `discover_and_load` builds: synthesized from
the tool when the module has no metadata export, else the module
metadata cloned with the name overridden and the description defaulted
(`metadata.description or getattr(tool, "description", "") or ""`). -/
def toolMetadataFor (skillName : String) (t : Tool) (md : Option SkillMetadata) : SkillMetadata :=
  match md with
  | none => { name := skillName, description := t.description.getD "" }
  | some m =>
      { name := skillName
        description := if m.description ≠ "" then m.description else t.description.getD ""
        tags := m.tags
        visibility := m.visibility
        version := m.version
        author := m.author
        dependencies := m.dependencies }

/-- The sequence of `register` calls `discover_and_load` performs for one
file: none when loading fails, the spec/loader is `None`, or no tool is
found; otherwise one per tool of `tools_to_register`, in order. -/
def fileRegistrations (module_name : String) (f : SkillFile) :
    List (String × Tool × SkillMetadata) :=
  match f.outcome with
  | .failure => []
  | .specNone => []
  | .ok m =>
      let ts := m.toolsToRegister
      if ts = [] then []
      else
        let base := strReplace f.stem (module_name ++ "_") ""
        ts.enum.map (fun p =>
          let skillName := skillNameFor base ts.length p.1 p.2
          (skillName, p.2, toolMetadataFor skillName p.2 m.metadataExport))

/-- The body of the per-file loop of `discover_and_load`: perform the
file's registrations (each bumps `loaded_count`), then record the module
under the base name when any tool was found. -/
def processFile (module_name : String) (acc : SkillRegistry × Nat) (f : SkillFile) :
    SkillRegistry × Nat :=
  let regs := fileRegistrations module_name f
  let r₀ := regs.foldl (fun r e => r.register e.1 e.2.1 (some e.2.2)) acc.1
  let r₁ :=
    match f.outcome with
    | .ok m =>
        if m.toolsToRegister = [] then r₀
        else { r₀ with modules :=
                dictInsert (strReplace f.stem (module_name ++ "_") "") m r₀.modules }
    | _ => r₀
  (r₁, acc.2 + regs.length)

/-- `SkillRegistry.discover_and_load`, given the files the glob
`f"{module_name}_*.py"` matched (in glob order): fold the per-file loop
starting from `loaded_count = 0` and return the final registry and
count. -/
def discoverAndLoad (module_name : String) (files : List SkillFile) (r : SkillRegistry) :
    SkillRegistry × Nat :=
  files.foldl (processFile module_name) (r, 0)

/-- `SkillRegistry.list_skills`. -/
def SkillRegistry.listSkills (r : SkillRegistry)
    (filter_fn : Option (SkillMetadata → Bool)) : List String :=
  match filter_fn with
  | none => r.skills.map Prod.fst
  | some f => r.skills.filterMap (fun p => if f p.2 then some p.1 else none)

/-- `SkillRegistry.get_metadata`. -/
def SkillRegistry.getMetadata (r : SkillRegistry) (n : String) : Option SkillMetadata :=
  dictLookup n r.skills

/-- `SkillRegistry.get_tool`. -/
def SkillRegistry.getTool (r : SkillRegistry) (n : String) : Option Tool :=
  dictLookup n r.tools

/-- `SkillRegistry.get_all_tools`: all tool values, or those whose name is
also a skill key and whose metadata passes the filter. -/
def SkillRegistry.getAllTools (r : SkillRegistry)
    (filter_fn : Option (SkillMetadata → Bool)) : List Tool :=
  match filter_fn with
  | none => r.tools.map Prod.snd
  | some f =>
      r.tools.filterMap (fun p =>
        match dictLookup p.1 r.skills with
        | some md => if f md then some p.2 else none
        | none => none)

/-- `SkillRegistry.__len__`. -/
def SkillRegistry.size (r : SkillRegistry) : Nat := r.skills.length

/-- `SkillRegistry.__contains__` (`skill_name in self._skills`). -/
def SkillRegistry.containsSkill (r : SkillRegistry) (n : String) : Bool :=
  (dictLookup n r.skills).isSome

/-- `SkillRegistry.search`: the loop over `self._skills.values()` with its
two `continue` guards (`if query: ...` and `if tags: ...`, both using
Python truthiness) and the final `results.append(metadata)`. -/
def SkillRegistry.search (r : SkillRegistry) (query : String)
    (tags : Option (List String)) : List SkillMetadata :=
  let query_lower := strToLower query
  let tagsTruthy : Bool := match tags with | some ts => !ts.isEmpty | none => false
  r.skills.foldl (fun results p =>
    let metadata := p.2
    if (!(query == "")) &&
        !(strHasSub (strToLower metadata.name) query_lower ||
          strHasSub (strToLower metadata.description) query_lower) then
      results
    else if tagsTruthy &&
        !((tags.getD []).any (fun tag => metadata.tags.contains tag)) then
      results
    else
      results ++ [metadata]) []

/-- Python slice `msgs[-n:]` for a non-negative `n`: the whole list when
`n = 0` (since `msgs[-0:]` is `msgs[0:]`), else the last `n` elements. -/
def pySliceLast (n : Nat) (l : List α) : List α :=
  if n = 0 then l else l.drop (l.length - n)

/-- `src/core/state.py::SkillStateFIFO` (message payloads left opaque). -/
structure SkillStateFIFO (μ : Type) where
  max_size : Nat := 100
  messages : List μ := []
deriving Repr

/-- `SkillStateFIFO.append`: extend, then keep only
`self.messages[-self.max_size:]` when the length exceeds `max_size`. -/
def SkillStateFIFO.append (s : SkillStateFIFO μ) (new_messages : List μ) :
    SkillStateFIFO μ :=
  let msgs := s.messages ++ new_messages
  if msgs.length > s.max_size then { s with messages := pySliceLast s.max_size msgs }
  else { s with messages := msgs }

/-- The fields of `src/config.py::SkillSystemConfig` (the `Path` field is
kept as its string form; `__post_init__` only coerces it). -/
structure SkillSystemConfig where
  skills_dir : String := "./skills"
  skill_module_name : String := "skill"
  state_mode : String := "replace"
  auto_discover : Bool := true
  filter_by_visibility : Bool := true
  allowed_visibilities : List String := ["public"]
  middleware_enabled : Bool := true
  verbose : Bool := false
  log_level : String := "INFO"
  max_concurrent_skills : Nat := 5
deriving DecidableEq, Repr

def validStateModes : List String := ["replace", "accumulate", "fifo"]

/-- Dataclass construction of `SkillSystemConfig`: the field record is
populated, then `__post_init__` validates `state_mode` against the valid
modes and raises `ValueError` otherwise, so no config value escapes in
that case. -/
def mkSkillSystemConfig (c : SkillSystemConfig) : Except String SkillSystemConfig :=
  if c.state_mode ∈ validStateModes then .ok c
  else .error ("state_mode must be one of " ++ toString validStateModes ++
    ", got " ++ c.state_mode)

/-- A value of the `agent_input` dict handed to the middleware: the
`"tools"` key holds a tool list, every other key an opaque payload. -/
inductive AIValue where
  | toolsVal (ts : List Tool)
  | otherVal (payload : String)
deriving DecidableEq, Repr

/-- The `agent_input` mapping. -/
abbrev AgentInput := List (String × AIValue)

/-- `src/middleware.py::SkillMiddleware.__call__`: query the registry
(`self.registry`, passed here as its current contents) with the
configured `filter_fn` if any, then assign `agent_input["tools"]` and
return the mapping. -/
def middlewareCall (registry : SkillRegistry)
    (filter_fn : Option (SkillMetadata → Bool)) (agent_input : AgentInput) : AgentInput :=
  let filtered_tools :=
    match filter_fn with
    | some f => registry.getAllTools (some f)
    | none => registry.getAllTools none
  dictInsert "tools" (.toolsVal filtered_tools) agent_input

/-- `src/AgentSkill.py::create_skill_agent`'s `visibility_filter`. -/
def visibilityFilter (config : SkillSystemConfig) (meta : SkillMetadata) : Bool :=
  if !config.filter_by_visibility then true
  else config.allowed_visibilities.contains meta.visibility

/-- `src/AgentSkill.py::create_skill_agent`'s `combined_filter`: the
visibility check ANDed with the caller-supplied predicate when one is
given, else the visibility check alone. -/
def combinedFilter (config : SkillSystemConfig)
    (filter_fn : Option (SkillMetadata → Bool)) : SkillMetadata → Bool :=
  match filter_fn with
  | some f => fun meta => visibilityFilter config meta && f meta
  | none => visibilityFilter config

/-- In-place mutation `registry.get_metadata(name).visibility = v` of a
metadata object shared with the registry (Python attribute assignment on
the stored object; used to state that the middleware recomputes from the
registry's current contents). -/
def SkillRegistry.setVisibility (r : SkillRegistry) (n v : String) : SkillRegistry :=
  let newSkills := r.skills.map
    (fun p => if p.1 = n then (p.1, { p.2 with visibility := v }) else p)
  { r with skills := newSkills }

/-- What Python `eval` does on one expression string: produce a value
whose `str()` is `val`, raise `ZeroDivisionError`, or raise some other
exception whose message is `msg`.  `eval` is an external interpreter, so
it is abstracted as a function the calculator receives. -/
inductive EvalOutcome where
  | ok (val : String)
  | zeroDiv
  | exc (msg : String)
deriving DecidableEq, Repr

/-- The character allowlist of the calculator skill. -/
def allowedChars : List Char := "0123456789+-*/.() ".data

/-- `src/skills/skill_calculator.py::calculator`: reject any expression
with a character outside the allowlist, else evaluate and render the
result, turning `ZeroDivisionError` and any other exception into textual
error results. -/
def calculator (ev : String → EvalOutcome) (expression : String) : String :=
  if expression.data.all (fun c => allowedChars.contains c) then
    match ev expression with
    | .ok val => "Result: " ++ val
    | .zeroDiv => "Error: Division by zero"
    | .exc msg => "Error: " ++ msg
  else
    "Error: Only basic arithmetic operations (+, -, *, /) are allowed"

/-- The calculator contract as the spec words it: if the expression
contains any character outside the allowed arithmetic set, the allowlist
error message; if evaluation divides by zero, the division error; any
other evaluation failure as a textual error; otherwise the rendered
result. -/
def calculatorSpec (ev : String → EvalOutcome) (expression : String) : String :=
  if expression.data.any (fun c => !(allowedChars.contains c)) then
    "Error: Only basic arithmetic operations (+, -, *, /) are allowed"
  else
    match ev expression with
    | .ok val => "Result: " ++ val
    | .zeroDiv => "Error: Division by zero"
    | .exc msg => "Error: " ++ msg

/-- The registry operations a client can perform (the constructors of
registry contents): direct `register` calls and `discover_and_load`
passes. -/
inductive RegOp where
  | reg (name : String) (tool : Tool) (md : Option SkillMetadata)
  | discover (module_name : String) (files : List SkillFile)

def applyOp (r : SkillRegistry) : RegOp → SkillRegistry
  | .reg n t m => r.register n t m
  | .discover mn fs => (discoverAndLoad mn fs r).1

/-- A registry reached from `SkillRegistry()` by a sequence of
operations. -/
def applyOps (ops : List RegOp) : SkillRegistry :=
  ops.foldl applyOp SkillRegistry.empty

/-! ### Helper lemmas -/

theorem dictLookup_isSome_iff_mem (n : String) :
    ∀ l : List (String × α), (dictLookup n l).isSome = true ↔ n ∈ l.map Prod.fst := by
  intro l
  induction l with
  | nil => simp [dictLookup]
  | cons p rest ih =>
      obtain ⟨k₁, v₁⟩ := p
      by_cases h : k₁ = n
      · subst h
        simp [dictLookup]
      · have hn : ¬ n = k₁ := fun hn => h hn.symm
        simp [dictLookup, h, hn, ih]

theorem mem_keys_dictInsert_self (k : String) (v : α) (l : List (String × α)) :
    k ∈ (dictInsert k v l).map Prod.fst := by
  rw [keys_dictInsert]
  by_cases h : k ∈ l.map Prod.fst
  · simp [h]
  · simp [h]

/-- The last `k` elements of a list (all of it when `k` exceeds the
length): how the spec reads "the last max_size elements". -/
def lastElems (k : Nat) (l : List α) : List α := l.drop (l.length - k)

/-! ### C3: state_mode validation -/

/-- C3: `SkillSystemConfig` construction succeeds exactly when
`state_mode` is one of "replace", "accumulate", "fifo"; any other string
makes `__post_init__` raise `ValueError`, so no config value exists. -/
theorem C3_state_mode_validation (c : SkillSystemConfig) :
    (∃ cfg, mkSkillSystemConfig c = Except.ok cfg) ↔
      (c.state_mode = "replace" ∨ c.state_mode = "accumulate" ∨ c.state_mode = "fifo") := by
  constructor
  · rintro ⟨cfg, h⟩
    by_cases hm : c.state_mode ∈ validStateModes
    · simpa [validStateModes] using hm
    · simp [mkSkillSystemConfig, hm] at h
  · intro h
    have hm : c.state_mode ∈ validStateModes := by simpa [validStateModes] using h
    exact ⟨c, by simp [mkSkillSystemConfig, hm]⟩

/-! ### C4: FIFO state truncation -/

/-- C4 counterexample: with `max_size = 0` the Python slice
`msgs[-0:]` is the whole list, so `append` keeps the message instead of
truncating to the last 0 elements as the claim states. -/
theorem C4_counterexample :
    ((({ max_size := 0, messages := [] } : SkillStateFIFO Nat).append [5]).messages = [5])
    ∧ ¬ ((({ max_size := 0, messages := [] } : SkillStateFIFO Nat).append [5]).messages
        = lastElems 0 (([] : List Nat) ++ [5])) := by
  constructor
  · decide
  · decide

/-- C4 amended: for every `max_size ≥ 1`, `append` leaves exactly the
last `max_size` elements of `old ++ new` in their original relative
order (with `max_size = 0` the code keeps everything); in particular
with `max_size = 3`, appending 5 messages one at a time leaves exactly
the last 3 in order. -/
theorem C4_amended :
    (∀ (μ : Type) (ms : Nat) (old new_messages : List μ), 0 < ms →
      (SkillStateFIFO.append { max_size := ms, messages := old } new_messages).messages
        = lastElems ms (old ++ new_messages))
    ∧ (((((({ max_size := 3, messages := [] } : SkillStateFIFO Nat).append
          [1]).append [2]).append [3]).append [4]).append [5]).messages = [3, 4, 5] := by
  constructor
  · intro μ ms old nw h
    have hms : ms ≠ 0 := Nat.pos_iff_ne_zero.mp h
    unfold SkillStateFIFO.append pySliceLast lastElems
    by_cases hlen : ms < old.length + nw.length
    · simp [hlen, hms]
    · have hz : old.length + nw.length - ms = 0 := by omega
      simp [hlen, hz]
  · decide

theorem C4_amended_witness :
    0 < 3 ∧
      (SkillStateFIFO.append { max_size := 3, messages := [1, 2, 3, 4] } [5]).messages
        = lastElems 3 (([1, 2, 3, 4] : List Nat) ++ [5]) :=
  ⟨by decide, C4_amended.1 Nat 3 [1, 2, 3, 4] [5] (by decide)⟩

/-! ### C6: register inserts or overwrites, last write wins -/

/-- C6: `register` inserts or overwrites the entry for `name` with no
uniqueness error: after two registrations under the same name the
registry holds exactly the second tool and metadata, `len` is unchanged
by the overwrite, and when metadata is omitted the stored metadata is
synthesized from the name and the tool's own description. -/
theorem C6_register_overwrite (r : SkillRegistry) (n : String)
    (t₁ t₂ t : Tool) (md₁ : Option SkillMetadata) (md₂ : SkillMetadata) :
    (((r.register n t₁ md₁).register n t₂ (some md₂)).getTool n = some t₂)
    ∧ (((r.register n t₁ md₁).register n t₂ (some md₂)).getMetadata n = some md₂)
    ∧ (((r.register n t₁ md₁).register n t₂ (some md₂)).size = (r.register n t₁ md₁).size)
    ∧ ((r.register n t none).getTool n = some t)
    ∧ ((r.register n t none).getMetadata n
        = some { name := n, description := t.description.getD "" }) := by
  refine ⟨?_, ?_, ?_, ?_, ?_⟩
  · simp [SkillRegistry.register, SkillRegistry.getTool, dictLookup_insert_self]
  · simp [SkillRegistry.register, SkillRegistry.getMetadata, dictLookup_insert_self]
  · simp only [SkillRegistry.register, SkillRegistry.size]
    exact length_dictInsert_mem n md₂ _ (mem_keys_dictInsert_self n _ r.skills)
  · simp [SkillRegistry.register, SkillRegistry.getTool, dictLookup_insert_self]
  · simp [SkillRegistry.register, SkillRegistry.getMetadata, dictLookup_insert_self]

/-! ### C1: naming of discovered skills -/

def c1Tool₀ : Tool := { name := none, description := some "d0" }

def c1Tool₁ : Tool := { name := none, description := some "d1" }

def c1File : SkillFile :=
  { stem := "skill_skill_a", outcome := .ok { toolsExport := some [c1Tool₀, c1Tool₁] } }

/-- C1 counterexample: the discovered file `skill_skill_a.py` yielding
two tools without a name attribute is registered as
`a_tool_0`/`a_tool_1` — the base removes *every* occurrence of
`"skill_"` (not just the prefix) and the unnamed fallback is
`tool_<idx>` (not the bare index) — not `skill_a_0`/`skill_a_1` as the
claim predicts. -/
theorem C1_counterexample :
    (((discoverAndLoad "skill" [c1File] SkillRegistry.empty).1.listSkills none)
        = ["a_tool_0", "a_tool_1"])
    ∧ ((discoverAndLoad "skill" [c1File] SkillRegistry.empty).1.listSkills none)
        ≠ ["skill_a_0", "skill_a_1"] := by
  constructor
  · decide
  · decide

/-- C1 amended: for every discovered skill file, with base name the
file's stem with every occurrence of `"<module_name>_"` removed: a file
yielding exactly one tool is registered under the base name; a file
yielding multiple tools registers the i-th tool under
`<base>_<toolname>` when the tool has a name attribute and under
`<base>_tool_<i>` when it has none. -/
theorem C1_amended (module_name : String) (f : SkillFile) (m : SkillModule)
    (hok : f.outcome = .ok m) :
    (fileRegistrations module_name f).map Prod.fst
      = (if m.toolsToRegister.length = 1
          then [strReplace f.stem (module_name ++ "_") ""]
          else m.toolsToRegister.enum.map (fun p =>
            strReplace f.stem (module_name ++ "_") "" ++ "_" ++
              (match p.2.name with | some nm => nm | none => "tool_" ++ toString p.1))) := by
  obtain ⟨stem, outcome⟩ := f
  simp only at hok
  subst hok
  simp only [fileRegistrations]
  by_cases hts : m.toolsToRegister = []
  · simp [hts]
  · simp only [hts, if_neg (fun h => hts h), List.map_map]
    by_cases h1 : m.toolsToRegister.length = 1
    · obtain ⟨t, ht⟩ := List.length_eq_one.mp h1
      simp [ht, skillNameFor, List.enum]
    · simp only [h1, if_false, hts, ite_false]
      rw [List.map_map]
      apply List.map_congr_left
      intro p _
      simp [skillNameFor, h1]

def c1WitTool : Tool := { name := some "alpha", description := none }

def c1WitModule : SkillModule :=
  { toolsExport := some [c1WitTool, { name := none, description := none }] }

def c1WitFile : SkillFile := { stem := "skill_demo", outcome := .ok c1WitModule }

theorem C1_amended_witness :
    c1WitFile.outcome = .ok c1WitModule ∧
      (fileRegistrations "skill" c1WitFile).map Prod.fst
        = (if c1WitModule.toolsToRegister.length = 1
            then [strReplace c1WitFile.stem ("skill" ++ "_") ""]
            else c1WitModule.toolsToRegister.enum.map (fun p =>
              strReplace c1WitFile.stem ("skill" ++ "_") "" ++ "_" ++
                (match p.2.name with | some nm => nm | none => "tool_" ++ toString p.1))) :=
  ⟨rfl, C1_amended "skill" c1WitFile c1WitModule rfl⟩

/-! ### C2: discovery tolerates a failing file -/

theorem discoverAndLoad_count (module_name : String) :
    ∀ (files : List SkillFile) (r : SkillRegistry) (c : Nat),
      (files.foldl (processFile module_name) (r, c)).2
        = c + (files.map (fun f => (fileRegistrations module_name f).length)).sum := by
  intro files
  induction files with
  | nil => intro r c; simp
  | cons f rest ih =>
      intro r c
      rw [List.foldl_cons]
      have h2 : processFile module_name (r, c) f
          = ((processFile module_name (r, c) f).1,
             c + (fileRegistrations module_name f).length) := rfl
      rw [h2, ih]
      simp [Nat.add_assoc]

/-- C2: a file whose load raises is caught and contributes nothing —
`discover_and_load` returns exactly what it returns without that file —
and the returned integer is the total number of tools registered during
the call (each file contributing the length of its registration list,
a failing file contributing zero). -/
theorem C2_discover_skips_failing_file (module_name : String)
    (pre post : List SkillFile) (bad : SkillFile) (r : SkillRegistry)
    (hbad : bad.outcome = .failure) :
    discoverAndLoad module_name (pre ++ bad :: post) r
      = discoverAndLoad module_name (pre ++ post) r
    ∧ (discoverAndLoad module_name (pre ++ bad :: post) r).2
      = ((pre ++ bad :: post).map
          (fun f => (fileRegistrations module_name f).length)).sum := by
  have hskip : ∀ acc : SkillRegistry × Nat, processFile module_name acc bad = acc := by
    intro acc
    obtain ⟨stem, outcome⟩ := bad
    simp only at hbad
    subst hbad
    simp [processFile, fileRegistrations]
  constructor
  · unfold discoverAndLoad
    rw [List.foldl_append, List.foldl_append, List.foldl_cons, hskip]
  · rw [discoverAndLoad, discoverAndLoad_count]
    simp

def c2GoodTool : Tool := { name := some "good", description := some "g" }

def c2GoodFile : SkillFile :=
  { stem := "skill_good", outcome := .ok { toolExport := some c2GoodTool } }

def c2BadFile : SkillFile := { stem := "skill_bad", outcome := .failure }

theorem C2_witness :
    c2BadFile.outcome = .failure ∧
      (discoverAndLoad "skill" ([c2GoodFile] ++ c2BadFile :: []) SkillRegistry.empty
          = discoverAndLoad "skill" ([c2GoodFile] ++ []) SkillRegistry.empty
        ∧ (discoverAndLoad "skill" ([c2GoodFile] ++ c2BadFile :: []) SkillRegistry.empty).2
          = (([c2GoodFile] ++ c2BadFile :: []).map
              (fun f => (fileRegistrations "skill" f).length)).sum) :=
  ⟨rfl, C2_discover_skips_failing_file "skill" [c2GoodFile] [] c2BadFile
    SkillRegistry.empty rfl⟩

/-! ### C9: calculator error handling -/

theorem any_not_eq_not_all (p : α → Bool) : ∀ l : List α, (l.any fun x => !p x) = !l.all p := by
  intro l
  induction l with
  | nil => simp
  | cons a l ih => simp [List.any_cons, List.all_cons, ih, Bool.not_and]

/-- C9: for every evaluator behaviour and every input string the
calculator returns a string (it is a total function): the allowlist
message when a character falls outside the allowed set, the division
message on `ZeroDivisionError`, a textual `Error: ...` for any other
evaluation failure, and `Result: <value>` otherwise — exactly the
case analysis `calculatorSpec` words out. -/
theorem C9_calculator_cases (ev : String → EvalOutcome) (e : String) :
    calculator ev e = calculatorSpec ev e := by
  unfold calculator calculatorSpec
  rw [any_not_eq_not_all]
  cases h : (e.data.all fun c => allowedChars.contains c) <;> simp [h]

/-! ### C7: middleware recomputes the exposed tool set, frame effect -/

/-- The exposed-tool predicate as the claim words it: the visibility
check (`metadata.visibility in allowed_visibilities`, or trivially true
when `filter_by_visibility` is off) logically ANDed with the
caller-supplied predicate when one is given. -/
def exposedPred (config : SkillSystemConfig) (filter_fn : Option (SkillMetadata → Bool))
    (m : SkillMetadata) : Bool :=
  (if config.filter_by_visibility then config.allowed_visibilities.contains m.visibility
   else true)
  && (match filter_fn with | some f => f m | none => true)

theorem combinedFilter_eq_exposedPred (config : SkillSystemConfig)
    (ffn : Option (SkillMetadata → Bool)) :
    combinedFilter config ffn = exposedPred config ffn := by
  funext m
  rcases ffn with _ | f
  · cases h : config.filter_by_visibility <;>
      simp [combinedFilter, exposedPred, visibilityFilter, h]
  · cases h : config.filter_by_visibility <;>
      simp [combinedFilter, exposedPred, visibilityFilter, h]

def c7Config : SkillSystemConfig := {}

def c7Tool : Tool := { name := some "calculator", description := some "calc" }

def c7Metadata : SkillMetadata := { name := "calculator", visibility := "public" }

def c7Registry : SkillRegistry :=
  SkillRegistry.empty.register "calculator" c7Tool (some c7Metadata)

/-- C7: the middleware returns the input mapping with only the
`"tools"` key replaced by the registry's current tools whose metadata
satisfies the combined predicate (visibility check ANDed with the caller
predicate); every other key is unchanged; and the set is recomputed from
the registry at each call, so flipping a skill's visibility to
"private" after registration empties the exposed set on the next call
without re-registering. -/
theorem C7_middleware_recomputes (reg : SkillRegistry) (config : SkillSystemConfig)
    (ffn : Option (SkillMetadata → Bool)) (inp : AgentInput) :
    (∀ k, k ≠ "tools" →
      dictLookup k (middlewareCall reg (some (combinedFilter config ffn)) inp)
        = dictLookup k inp)
    ∧ (dictLookup "tools" (middlewareCall reg (some (combinedFilter config ffn)) inp)
        = some (.toolsVal (reg.getAllTools (some (exposedPred config ffn)))))
    ∧ (middlewareCall c7Registry (some (combinedFilter c7Config none)) []
        = [("tools", .toolsVal [c7Tool])])
    ∧ (middlewareCall (c7Registry.setVisibility "calculator" "private")
          (some (combinedFilter c7Config none)) []
        = [("tools", .toolsVal [])]) := by
  refine ⟨?_, ?_, by decide, by decide⟩
  · intro k hk
    exact dictLookup_insert_ne "tools" k _ hk _
  · show dictLookup "tools" (dictInsert "tools" _ inp) = _
    rw [dictLookup_insert_self, combinedFilter_eq_exposedPred]

theorem C7_witness :
    ("other" : String) ≠ "tools" ∧
      dictLookup "other" (middlewareCall c7Registry (some (combinedFilter c7Config none))
          [("other", .otherVal "x")])
        = dictLookup "other" [("other", .otherVal "x")] :=
  ⟨by decide, (C7_middleware_recomputes c7Registry c7Config none
      [("other", .otherVal "x")]).1 "other" (by decide)⟩

/-! ### C5: search semantics -/

/-- The search predicate as the claim words it: (query is empty, or the
lowercased query is a substring of the lowercased name or of the
lowercased description) AND (tags is None or empty, or some tag in tags
is an element of the metadata's tags). -/
def searchMatches (query : String) (tags : Option (List String)) (m : SkillMetadata) : Bool :=
  (query == "" || strHasSub (strToLower m.name) (strToLower query)
      || strHasSub (strToLower m.description) (strToLower query))
  && (match tags with
      | none => true
      | some ts => ts.isEmpty || ts.any (fun tag => m.tags.contains tag))

theorem searchMatches_eq_guards (q : String) (tags : Option (List String)) (m : SkillMetadata) :
    searchMatches q tags m
      = ((!((!(q == "")) &&
            !(strHasSub (strToLower m.name) (strToLower q) ||
              strHasSub (strToLower m.description) (strToLower q))))
        && (!((match tags with | some ts => !ts.isEmpty | none => false) &&
            !((tags.getD []).any (fun tag => m.tags.contains tag))))) := by
  rcases tags with _ | ts
  · simp [searchMatches, Bool.not_and, Bool.not_not, Bool.or_assoc]
  · simp [searchMatches, Bool.not_and, Bool.not_not, Bool.or_assoc]

/-- A left fold that appends `g x` unless one of two guards fires is the
filter through the negated guards, mapped. -/
theorem foldl_two_guards (c₁ c₂ : α → Bool) (g : α → β) :
    ∀ (l : List α) (acc : List β),
      (l.foldl (fun results x =>
        if c₁ x then results else if c₂ x then results else results ++ [g x]) acc)
      = acc ++ (l.filter (fun x => !c₁ x && !c₂ x)).map g := by
  intro l
  induction l with
  | nil => intro acc; simp
  | cons a l ih =>
      intro acc
      rw [List.foldl_cons, List.filter_cons]
      cases h₁ : c₁ a
      · cases h₂ : c₂ a
        · simp only [h₁, h₂, Bool.not_false, Bool.and_self, if_true,
            Bool.false_eq_true, ite_false]
          rw [ih]
          simp [List.append_assoc]
        · simp only [h₁, h₂, Bool.not_false, Bool.not_true, Bool.and_false,
            Bool.false_eq_true, ite_false, ite_true]
          rw [ih]
      · simp only [h₁, Bool.not_true, Bool.false_and, Bool.false_eq_true,
          ite_false, ite_true]
        rw [ih]

def calcMetadata : SkillMetadata :=
  { name := "calculator"
    description := "Perform basic arithmetic calculations (addition, subtraction, multiplication, division)"
    tags := ["math", "calculator", "arithmetic"]
    author := "Skill System" }

def calcToolEmb : Tool :=
  { name := some "calculator", description := some "Evaluate a mathematical expression safely" }

def calcRegistry : SkillRegistry :=
  SkillRegistry.empty.register "calculator" calcToolEmb (some calcMetadata)

/-- C5: `search(query, tags)` returns exactly the metadata of registered
skills matching `searchMatches` (case-insensitive substring in name or
description, ANDed with any-tag membership), in registration order;
hence `search("calc")` against a registry holding the calculator skill
returns it, while `search("calc", ["time"])` returns the empty list. -/
theorem C5_search_characterization :
    (∀ (r : SkillRegistry) (q : String) (tags : Option (List String)),
      r.search q tags = (r.skills.map Prod.snd).filter (searchMatches q tags))
    ∧ calcRegistry.search "calc" none = [calcMetadata]
    ∧ calcRegistry.search "calc" (some ["time"]) = [] := by
  refine ⟨?_, by decide, by decide⟩
  intro r q tags
  have hfold := foldl_two_guards
    (fun p : String × SkillMetadata =>
      (!(q == "")) &&
        !(strHasSub (strToLower p.2.name) (strToLower q) ||
          strHasSub (strToLower p.2.description) (strToLower q)))
    (fun p : String × SkillMetadata =>
      (match tags with | some ts => !ts.isEmpty | none => false) &&
        !((tags.getD []).any (fun tag => p.2.tags.contains tag)))
    Prod.snd r.skills []
  simp only [] at hfold
  show (r.skills.foldl (fun results p =>
      if (!(q == "")) &&
          !(strHasSub (strToLower p.2.name) (strToLower q) ||
            strHasSub (strToLower p.2.description) (strToLower q)) then
        results
      else if (match tags with | some ts => !ts.isEmpty | none => false) &&
          !((tags.getD []).any (fun tag => p.2.tags.contains tag)) then
        results
      else
        results ++ [p.2]) [])
    = (r.skills.map Prod.snd).filter (searchMatches q tags)
  rw [hfold, List.filter_map, List.nil_append]
  congr 1
  apply List.filter_congr
  intro x _
  simp only [Function.comp_apply]
  exact (searchMatches_eq_guards q tags x.2).symm

/-! ### C8: registry key invariant -/

/-- The registry key invariant: the metadata and tool dicts always carry
the same keys in the same order, and keys are unique. -/
def RegInv (r : SkillRegistry) : Prop :=
  r.skills.map Prod.fst = r.tools.map Prod.fst ∧ (r.skills.map Prod.fst).Nodup

theorem regInv_empty : RegInv SkillRegistry.empty := by
  constructor <;> simp [SkillRegistry.empty]

theorem regInv_register (r : SkillRegistry) (n : String) (t : Tool)
    (md : Option SkillMetadata) (h : RegInv r) : RegInv (r.register n t md) := by
  obtain ⟨hkeys, hnd⟩ := h
  constructor
  · show (dictInsert n _ r.skills).map Prod.fst = (dictInsert n t r.tools).map Prod.fst
    rw [keys_dictInsert, keys_dictInsert, hkeys]
  · exact nodup_keys_dictInsert n _ r.skills hnd

theorem regInv_set_modules (r : SkillRegistry) (x : List (String × SkillModule))
    (h : RegInv r) : RegInv { r with modules := x } := h

theorem regInv_foldRegister :
    ∀ (regs : List (String × Tool × SkillMetadata)) (r : SkillRegistry), RegInv r →
      RegInv (regs.foldl (fun r e => r.register e.1 e.2.1 (some e.2.2)) r) := by
  intro regs
  induction regs with
  | nil => intro r h; exact h
  | cons e rest ih =>
      intro r h
      exact ih _ (regInv_register r e.1 e.2.1 (some e.2.2) h)

theorem regInv_processFile (mn : String) (f : SkillFile) (acc : SkillRegistry × Nat)
    (h : RegInv acc.1) : RegInv (processFile mn acc f).1 := by
  have h₀ := regInv_foldRegister (fileRegistrations mn f) acc.1 h
  rcases hof : f.outcome with _ | _ | m
  · simpa [processFile, hof] using h₀
  · simpa [processFile, hof] using h₀
  · by_cases hts : m.toolsToRegister = []
    · simpa [processFile, hof, hts] using h₀
    · have h₁ := regInv_set_modules _
        (dictInsert (strReplace f.stem (mn ++ "_") "") m
          (((fileRegistrations mn f).foldl
            (fun r e => r.register e.1 e.2.1 (some e.2.2)) acc.1).modules)) h₀
      simpa [processFile, hof, hts] using h₁

theorem regInv_discover (mn : String) :
    ∀ (files : List SkillFile) (acc : SkillRegistry × Nat), RegInv acc.1 →
      RegInv (files.foldl (processFile mn) acc).1 := by
  intro files
  induction files with
  | nil => intro acc h; exact h
  | cons f rest ih =>
      intro acc h
      exact ih _ (regInv_processFile mn f acc h)

theorem regInv_applyOp (r : SkillRegistry) (op : RegOp) (h : RegInv r) :
    RegInv (applyOp r op) := by
  cases op with
  | reg n t m => exact regInv_register r n t m h
  | discover mn fs => exact regInv_discover mn fs (r, 0) h

theorem regInv_applyOps : ∀ ops : List RegOp, RegInv (applyOps ops) := by
  have hfold : ∀ (ops : List RegOp) (r : SkillRegistry), RegInv r →
      RegInv (ops.foldl applyOp r) := by
    intro ops
    induction ops with
    | nil => intro r h; exact h
    | cons op rest ih =>
        intro r h
        exact ih _ (regInv_applyOp r op h)
  intro ops
  exact hfold ops SkillRegistry.empty regInv_empty

/-- C8: after every sequence of `register` and `discover_and_load`
operations from a fresh registry, the metadata dict and the tool dict
have exactly the same (duplicate-free) key list — every registered name
has exactly one metadata and one tool — and `len` and the membership
test reflect exactly that set of registered names. -/
theorem C8_registry_invariant (ops : List RegOp) :
    ((applyOps ops).skills.map Prod.fst = (applyOps ops).tools.map Prod.fst)
    ∧ ((applyOps ops).skills.map Prod.fst).Nodup
    ∧ ((applyOps ops).size = ((applyOps ops).skills.map Prod.fst).length)
    ∧ (∀ n, (applyOps ops).containsSkill n = true ↔
        n ∈ (applyOps ops).skills.map Prod.fst) := by
  obtain ⟨h₁, h₂⟩ := regInv_applyOps ops
  refine ⟨h₁, h₂, ?_, ?_⟩
  · simp [SkillRegistry.size]
  · intro n
    exact dictLookup_isSome_iff_mem n _

/-! ### C10: list_skills and get_all_tools agree pointwise -/

theorem mem_of_mem_filterMapNames (f : SkillMetadata → Bool)
    (s : List (String × SkillMetadata)) (n : String)
    (hn : n ∈ s.filterMap (fun p => if f p.2 then some p.1 else none)) :
    n ∈ s.map Prod.fst := by
  rw [List.mem_filterMap] at hn
  obtain ⟨p, hp, he⟩ := hn
  by_cases hf : f p.2
  · rw [if_pos hf] at he
    injection he with he
    subst he
    exact List.mem_map_of_mem Prod.fst hp
  · rw [if_neg hf] at he
    exact absurd he (by simp)

theorem keys_map_lookup {α : Type} :
    ∀ t : List (String × α), (t.map Prod.fst).Nodup →
      (t.map Prod.fst).map (fun n => dictLookup n t) = t.map (fun p => some p.2) := by
  intro t
  induction t with
  | nil => intro _; simp
  | cons a rest ih =>
      intro hnd
      obtain ⟨k, v⟩ := a
      simp only [List.map_cons, List.nodup_cons] at hnd ⊢
      obtain ⟨hknot, hnds⟩ := hnd
      congr 1
      · simp [dictLookup]
      · have hcongr : ∀ n ∈ rest.map Prod.fst,
            dictLookup n ((k, v) :: rest) = dictLookup n rest := by
          intro n hn
          have hne : ¬ k = n := fun he => hknot (he ▸ hn)
          simp [dictLookup, hne]
        rw [List.map_congr_left hcongr]
        exact ih hnds

theorem aligned_filter (f : SkillMetadata → Bool) :
    ∀ (s : List (String × SkillMetadata)) (t : List (String × Tool)),
      s.map Prod.fst = t.map Prod.fst → (s.map Prod.fst).Nodup →
      ((s.filterMap (fun p => if f p.2 then some p.1 else none)).map
          (fun n => dictLookup n t))
        = (t.filterMap (fun p =>
            match dictLookup p.1 s with
            | some mm => if f mm then some p.2 else none
            | none => none)).map some := by
  intro s
  induction s with
  | nil =>
      intro t hk _
      cases t with
      | nil => simp
      | cons b bs => simp at hk
  | cons a s ih =>
      intro t hk hnd
      obtain ⟨k, md⟩ := a
      cases t with
      | nil => simp at hk
      | cons b bs =>
          obtain ⟨k₂, tv⟩ := b
          simp only [List.map_cons, List.cons.injEq] at hk
          obtain ⟨hkk, hks⟩ := hk
          subst hkk
          simp only [List.map_cons, List.nodup_cons] at hnd
          obtain ⟨hknot, hnds⟩ := hnd
          have htailL : ∀ n ∈ s.filterMap (fun p => if f p.2 then some p.1 else none),
              dictLookup n ((k, tv) :: bs) = dictLookup n bs := by
            intro n hn
            have hn₂ : n ∈ s.map Prod.fst := mem_of_mem_filterMapNames f s n hn
            have hne : ¬ k = n := fun he => hknot (he ▸ hn₂)
            simp [dictLookup, hne]
          have htailR : ∀ p ∈ bs,
              (match dictLookup p.1 ((k, md) :: s) with
                | some mm => if f mm then some p.2 else none
                | none => none)
              = (match dictLookup p.1 s with
                | some mm => if f mm then some p.2 else none
                | none => none) := by
            intro p hp
            have hp₁ : p.1 ∈ bs.map Prod.fst := List.mem_map_of_mem Prod.fst hp
            rw [← hks] at hp₁
            have hne : ¬ k = p.1 := fun he => hknot (he ▸ hp₁)
            simp [dictLookup, hne]
          have hlkS : dictLookup k ((k, md) :: s) = some md := by simp [dictLookup]
          have hlkT : dictLookup k ((k, tv) :: bs) = some tv := by simp [dictLookup]
          rw [List.filterMap_cons, List.filterMap_cons, hlkS]
          by_cases hf : f md
          · simp only [if_pos hf, List.map_cons, hlkT]
            rw [List.map_congr_left htailL, List.filterMap_congr htailR, ih bs hks hnds]
          · simp only [if_neg hf]
            rw [List.map_congr_left htailL, List.filterMap_congr htailR, ih bs hks hnds]

/-- C10: for every registry reachable through the API and every optional
predicate, `list_skills` and `get_all_tools` agree pointwise:
`get_tool` applied to the i-th name of `list_skills` yields exactly the
i-th tool of `get_all_tools`, in the same (insertion) order, and both
have the same length; with no predicate both enumerate all registered
entries. -/
theorem C10_list_skills_get_all_tools_agree (ops : List RegOp)
    (p : Option (SkillMetadata → Bool)) :
    (((applyOps ops).listSkills p).map (fun n => (applyOps ops).getTool n)
        = ((applyOps ops).getAllTools p).map some)
    ∧ (((applyOps ops).listSkills p).length = ((applyOps ops).getAllTools p).length) := by
  obtain ⟨hkeys, hnd⟩ := regInv_applyOps ops
  have hmain : ((applyOps ops).listSkills p).map (fun n => (applyOps ops).getTool n)
      = ((applyOps ops).getAllTools p).map some := by
    rcases p with _ | f
    · show ((applyOps ops).skills.map Prod.fst).map
          (fun n => dictLookup n (applyOps ops).tools)
        = ((applyOps ops).tools.map Prod.snd).map some
      rw [hkeys, keys_map_lookup _ (hkeys ▸ hnd), List.map_map]
      simp [Function.comp]
    · exact aligned_filter f _ _ hkeys hnd
  refine ⟨hmain, ?_⟩
  have hlen := congrArg List.length hmain
  simpa using hlen

end SkillSys
